import Mathlib

/-!
Shallow embedding of the `light-validation` JavaScript library and proofs
about its validator composition and execution model.

Each validator class is embedded as an executable Lean function over a
`JsValue` type that models the JavaScript runtime values the validators
inspect.  Rule closures are embedded as small inductive rule descriptions
plus a `…RuleRun` function that mirrors the body of the closure pushed by
the corresponding builder method.  JavaScript exceptions (property access
on `null`/`undefined`) are modelled with `Except Unit`.
-/

namespace LightValidation

/-- JavaScript runtime values, to the extent the validators inspect them.
Numbers are split into finite numbers (`vnum`, carried as a rational so
`Number.isInteger` is expressible) and `NaN` (`vnan`).  `vobj` models the
duck-typed file descriptor objects `{type, size}` consumed by the file
validator; a missing property is `none`.  File sizes in the claims are
integral byte counts, so `size` is carried as an integer. -/
inductive JsValue where
  | vnull
  | vundefined
  | vbool (b : Bool)
  | vnum (q : ℚ)
  | vnan
  | vstr (s : String)
  | varr (elems : List JsValue)
  | vobj (ftype : Option String) (fsize : Option Int)

/-- `value == null` (loose equality): true exactly for `null` and `undefined`. -/
def JsValue.isNullish : JsValue → Bool
  | .vnull => true
  | .vundefined => true
  | _ => false

/-- `value === undefined`. -/
def JsValue.isUndefined : JsValue → Bool
  | .vundefined => true
  | _ => false

/-- `typeof value === 'string'`. -/
def JsValue.isStr : JsValue → Bool
  | .vstr _ => true
  | _ => false

/-- `typeof value === 'object'`: true for plain objects, arrays and `null`. -/
def JsValue.typeofIsObject : JsValue → Bool
  | .vnull => true
  | .varr _ => true
  | .vobj _ _ => true
  | _ => false

/-- `value.length` where `value` is known not to be `null`/`undefined`:
strings and arrays have a numeric `length`, every other value yields
`undefined` (`none`). -/
def jsLenNonNull : JsValue → Option Nat
  | .vstr s => some s.length
  | .varr es => some es.length
  | _ => none

/-- `value.length` in general: accessing the property throws a `TypeError`
when the base is `null`/`undefined`. -/
def jsLength : JsValue → Except Unit (Option Nat)
  | .vnull => .error ()
  | .vundefined => .error ()
  | v => .ok (jsLenNonNull v)

/-- `options.message || default`: JavaScript `||` falls back to the default
when the custom message is absent or the empty string (falsy). -/
def jsOrMsg (custom : Option String) (dflt : String) : String :=
  match custom with
  | some m => if m = "" then dflt else m
  | none => dflt

/-- The result object `{valid: true, data}` / `{valid: false, errors}`
returned by every primitive validator's `validate`. -/
inductive VResult where
  | ok (data : JsValue)
  | err (errors : List String)

/-- Outcome of one rule closure: `{valid: true, value/data}` or
`{valid: false, error}`. -/
inductive RuleOutcome where
  | pass (value : JsValue)
  | fail (error : String)

/-! ## String validator (`StringValidator` using `until/validationHelper`)

The configurable rules are `min(length, options)` and `max(length, options)`;
each is stored as the data of the closure the builder pushes. -/

/-- A rule pushed by `StringValidator.min`/`StringValidator.max`. -/
inductive StrRule where
  | min (len : Int) (msg : Option String)
  | max (len : Int) (msg : Option String)

/-- Body of the closure pushed by `StringValidator.min`/`max`.  The closure
reads `value.length` (which throws on `null`/`undefined`); comparing the
`undefined` length of a non-string/non-array with a number is `false` in
JavaScript, so such values pass. -/
def strRuleRun (r : StrRule) (value : JsValue) (fieldName : String) :
    Except Unit RuleOutcome := do
  let l ← jsLength value
  match r with
  | .min len msg =>
      match l with
      | some n =>
          if (n : Int) < len then
            pure (.fail (jsOrMsg msg
              (fieldName ++ " must be at least " ++ toString len ++ " characters long.")))
          else pure (.pass value)
      | none => pure (.pass value)
  | .max len msg =>
      match l with
      | some n =>
          if (n : Int) > len then
            pure (.fail (jsOrMsg msg
              (fieldName ++ " must be no more than " ++ toString len ++ " characters long.")))
          else pure (.pass value)
      | none => pure (.pass value)

/-- `validateType` from `until/validationHelper`: array-mode checks the value
is an array of strings (reporting the first offending index), otherwise a
non-null, non-string value is rejected.  `null`/`undefined` pass. -/
def validateType (value : JsValue) (fieldName : String) (isArray : Bool) :
    Option String :=
  if isArray then
    match value with
    | .varr es =>
        match es.findIdx? (fun e => !e.isStr) with
        | some i => some (fieldName ++ "[" ++ toString i ++ "] must be a string")
        | none => none
    | _ => some (fieldName ++ " must be an array")
  else
    if value.isNullish then none
    else match value with
      | .vstr _ => none
      | _ => some (fieldName ++ " must be a string")

/-- State returned by `validateRules`. -/
structure RulesOutcome where
  isValid : Bool
  errors : List String
  value : JsValue

/-- The rule loop of `validateRules`: every rule runs on the raw value (the
loop never short-circuits); a failing rule appends its message and nulls the
working data, a passing rule's returned value becomes the working data. -/
def validateRulesGo (value : JsValue) (fieldName : String) :
    List StrRule → Bool → List String → JsValue → Except Unit RulesOutcome
  | [], isValid, errors, validData => pure ⟨isValid, errors, validData⟩
  | r :: rs, isValid, errors, validData => do
      match ← strRuleRun r value fieldName with
      | .fail e => validateRulesGo value fieldName rs false (errors ++ [e]) .vnull
      | .pass v => validateRulesGo value fieldName rs isValid errors v

/-- `validateRules(value, fieldName, rules)` from `until/validationHelper`. -/
def validateRules (value : JsValue) (fieldName : String) (rules : List StrRule) :
    Except Unit RulesOutcome :=
  validateRulesGo value fieldName rules true [] value

/-- `StringValidator.validate(value, options)`: type check, then the
required check (whose guard `value != null && value.length === 0` skips
`null`/`undefined`), then the rule loop on the raw (untrimmed) value.
Note that step 3 pushes the rule messages into `errors` and nulls
`validData` but never sets `isValid = false`, so the final
`return isValid ? {valid:true, data:validData} : {valid:false, errors}`
yields `{valid: true, data: null}` on rule failure — the collected
messages are discarded. -/
def stringValidate (rules : List StrRule) (allowNull isArray : Bool)
    (value : JsValue) (fieldNameOpt : Option String) : Except Unit VResult :=
  let fieldName := fieldNameOpt.getD "value"
  match validateType value fieldName isArray with
  | some e => pure (.err [e])
  | none =>
      if !value.isNullish && (jsLenNonNull value == some 0) && !allowNull then
        pure (.err [fieldName ++ " is required"])
      else do
        let ro ← validateRules value fieldName rules
        if ro.isValid then pure (.ok ro.value) else pure (.ok .vnull)

/-! ## Integer validator (`IntegerValidator`) -/

/-- A rule pushed by `IntegerValidator.min`/`max`/`positive`. -/
inductive IntRule where
  | min (m : Int) (msg : Option String)
  | max (m : Int) (msg : Option String)
  | positive (msg : Option String)

/-- Body of an integer rule closure.  The closure's second parameter is the
field name, but `validate` invokes the rule as `rule(value)` with only one
argument, so the parameter is `undefined` (`none`) and the template literal
interpolates the text `undefined`. -/
def intRuleRun (r : IntRule) (value : ℚ) (fieldName : Option String) : RuleOutcome :=
  let fn := fieldName.getD "undefined"
  match r with
  | .min m msg =>
      if value < (m : ℚ) then
        .fail (jsOrMsg msg (fn ++ " must be greater than or equal to " ++ toString m))
      else .pass (.vnum value)
  | .max m msg =>
      if value > (m : ℚ) then
        .fail (jsOrMsg msg (fn ++ " must be less than or equal to " ++ toString m))
      else .pass (.vnum value)
  | .positive msg =>
      if value ≤ 0 then
        .fail (jsOrMsg msg (fn ++ " must be a positive number"))
      else .pass (.vnum value)

/-- Digit run to its numeric value (base 10). -/
def digitsToNat (ds : List Char) : Nat :=
  ds.foldl (fun a c => a * 10 + (c.toNat - 48)) 0

/-- The optional leading sign read by `parseInt`. -/
def jsParseSign : List Char → Int × List Char
  | '-' :: t => (-1, t)
  | '+' :: t => (1, t)
  | cs => (1, cs)

/-- `parseInt(s, 10)`: skip leading whitespace, read an optional sign, then
the maximal run of leading decimal digits; `none` models `NaN` (no digits).
(The claims only exercise ASCII whitespace, which `Char.isWhitespace`
covers.) -/
def jsParseInt (s : String) : Option Int :=
  let cs := s.data.dropWhile (fun c => c.isWhitespace)
  let signed := jsParseSign cs
  let ds := signed.2.takeWhile (fun c => c.isDigit)
  if ds.isEmpty then none else some (signed.1 * (digitsToNat ds : Int))

/-- The rule loop of `IntegerValidator.validate`: note the call `rule(value)`
passes no field name. -/
def intRulesGo (value : ℚ) :
    List IntRule → Bool → List String → JsValue → Bool × List String × JsValue
  | [], b, errs, vd => (b, errs, vd)
  | r :: rs, b, errs, vd =>
      match intRuleRun r value none with
      | .fail e => intRulesGo value rs false (errs ++ [e]) .vnull
      | .pass v => intRulesGo value rs b errs v

/-- `IntegerValidator.validate(value, options)`.  `validData` starts as the
*original* argument and is only overwritten by passing rules, so with no
rules a coerced string is returned unchanged.  A string is coerced with
`parseInt(value, 10)` before the `typeof value === 'number' &&
Number.isInteger(value)` check. -/
def integerValidate (rules : List IntRule) (allowNull : Bool) (value : JsValue)
    (fieldNameOpt : Option String) : VResult :=
  let fieldName := fieldNameOpt.getD "value"
  if value.isNullish || (jsLenNonNull value == some 0) then
    if allowNull then .ok .vnull
    else .err [fieldName ++ " is required"]
  else
    let v : JsValue :=
      match value with
      | .vstr s =>
          match jsParseInt s with
          | some n => .vnum (n : ℚ)
          | none => .vnan
      | other => other
    match v with
    | .vnum q =>
        if q.den = 1 then
          let (b, errs, vd) := intRulesGo q rules true [] value
          if b then .ok vd else .err errs
        else .err [fieldName ++ " must be an integer"]
    | _ => .err [fieldName ++ " must be an integer"]

/-! ## Password validator (`PasswordValidator`, the variant whose `validate`
takes `options` and calls `rule(value, fieldName)`) -/

/-- A rule pushed by the password builder methods. -/
inductive PwRule where
  | min (len : Int)
  | containsNumber
  | containsSpecialChar
  | containsUppercase

/-- The fixed punctuation set of `containsSpecialChar`:
`!@#$%^&*(),.?":{}|<>`. -/
def pwSpecialChars : List Char :=
  ['!', '@', '#', '$', '%', '^', '&', '*', '(', ')', ',', '.', '?', '\"',
   ':', '\x7b', '\x7d', '|', '<', '>']

/-- Body of a password rule closure.  The regex-based rules return
`{valid: true, value}` on success; `min` returns `{valid: true}` whose
`value` property is `undefined`. -/
def pwRuleRun (r : PwRule) (value : String) (fieldName : String) : RuleOutcome :=
  match r with
  | .min len =>
      if (value.length : Int) < len then
        .fail (fieldName ++ " must be at least " ++ toString len ++ " characters long.")
      else .pass .vundefined
  | .containsNumber =>
      if value.data.any (fun c => c.isDigit) then .pass (.vstr value)
      else .fail (fieldName ++ " must contain at least one number.")
  | .containsSpecialChar =>
      if value.data.any (fun c => pwSpecialChars.contains c) then .pass (.vstr value)
      else .fail (fieldName ++ " must contain at least one special character.")
  | .containsUppercase =>
      if value.data.any (fun c => c.isUpper) then .pass (.vstr value)
      else .fail (fieldName ++ " must contain at least one uppercase letter.")

/-- The rule loop of `PasswordValidator.validate`: all rules run, each
failing rule appends its message. -/
def pwRulesGo (value : String) (fieldName : String) :
    List PwRule → Bool → List String → JsValue → Bool × List String × JsValue
  | [], b, errs, vd => (b, errs, vd)
  | r :: rs, b, errs, vd =>
      match pwRuleRun r value fieldName with
      | .fail e => pwRulesGo value fieldName rs false (errs ++ [e]) .vnull
      | .pass v => pwRulesGo value fieldName rs b errs v

/-- `PasswordValidator.validate(value, options)`. -/
def passwordValidate (rules : List PwRule) (allowNull : Bool) (value : JsValue)
    (fieldNameOpt : Option String) : VResult :=
  let fieldName := fieldNameOpt.getD "Password"
  if value.isNullish || (jsLenNonNull value == some 0) then
    if allowNull then .ok .vnull
    else .err [fieldName ++ " is required."]
  else
    match value with
    | .vstr s =>
        let (b, errs, vd) := pwRulesGo s fieldName rules true [] value
        if b then .ok vd else .err errs
    | _ => .err [fieldName ++ " must be a string."]

/-! ## Email validator (`EmailValidator`, the class-with-options variant)

The format check is the regex
`/^[a-zA-Z0-9._%+-]+@[a-zA-Z0-9.-]+\.[a-zA-Z]{2,}$/`.  Its language is the
set of strings decomposable as `local ++ "@" ++ domain ++ "." ++ tld` with a
non-empty local part over `[a-zA-Z0-9._%+-]`, a non-empty domain part over
`[a-zA-Z0-9.-]`, and a tld of at least two letters; `emailMatches` decides
this by searching over all decompositions. -/

/-- Characters matched by `[a-zA-Z0-9._%+-]`. -/
def isLocalChar (c : Char) : Bool :=
  c.isAlpha || c.isDigit || c == '.' || c == '_' || c == '%' || c == '+' || c == '-'

/-- Characters matched by `[a-zA-Z0-9.-]`. -/
def isDomainChar (c : Char) : Bool :=
  c.isAlpha || c.isDigit || c == '.' || c == '-'

/-- All splits `(pre, suf)` with `pre ++ suf = cs`. -/
def splitsList (cs : List Char) : List (List Char × List Char) :=
  cs.inits.zip cs.tails

/-- Executable matcher for the email regex. -/
def emailMatches (s : String) : Bool :=
  (splitsList s.data).any fun pr =>
    match pr.2 with
    | '@' :: rest =>
        !pr.1.isEmpty && pr.1.all isLocalChar &&
        ((splitsList rest).any fun qr =>
          match qr.2 with
          | '.' :: t =>
              !qr.1.isEmpty && qr.1.all isDomainChar &&
              decide (2 ≤ t.length) && t.all (fun c => c.isAlpha)
          | _ => false)
    | _ => false

/-- The email-address language as the specification words it: a
`local@domain.tld` decomposition with an ASCII local part of
letters/digits/`._%+-`, a domain of letters/digits/`.-`, and a TLD of at
least 2 letters. -/
def EmailLang (s : String) : Prop :=
  ∃ l d t : List Char,
    s.data = l ++ '@' :: (d ++ '.' :: t) ∧
    l ≠ [] ∧ (∀ c ∈ l, isLocalChar c = true) ∧
    d ≠ [] ∧ (∀ c ∈ d, isDomainChar c = true) ∧
    2 ≤ t.length ∧ (∀ c ∈ t, c.isAlpha = true)

/-- A rule pushed by `EmailValidator.max`. -/
inductive EmRule where
  | max (len : Int) (msg : Option String)

/-- Body of the closure pushed by `EmailValidator.max`; it checks the raw
value's length and on success returns `{valid: true, data: value}`. -/
def emRuleRun (r : EmRule) (value : String) (fieldName : String) : RuleOutcome :=
  match r with
  | .max len msg =>
      if (value.length : Int) > len then
        .fail (jsOrMsg msg
          (fieldName ++ " must be no more than " ++ toString len ++ " characters long."))
      else .pass (.vstr value)

/-- The `#rules` loop of `EmailValidator.validate`. -/
def emRulesGo (value : String) (fieldName : String) :
    List EmRule → Bool → List String → JsValue → Bool × List String × JsValue
  | [], b, errs, vd => (b, errs, vd)
  | r :: rs, b, errs, vd =>
      match emRuleRun r value fieldName with
      | .fail e => emRulesGo value fieldName rs false (errs ++ [e]) .vnull
      | .pass v => emRulesGo value fieldName rs b errs v

/-- `EmailValidator.validate(value, options)`: nullability/required gate,
string check, the non-removable format check (error message fixed at
construction: `options.message || 'Email must be valid'`), then the `max`
rules. -/
def emailValidate (rules : List EmRule) (allowNull : Bool) (ctorMsg : Option String)
    (value : JsValue) (fieldNameOpt : Option String) : VResult :=
  let fieldName := fieldNameOpt.getD "Email"
  let message := jsOrMsg ctorMsg "Email must be valid"
  if value.isNullish || (jsLenNonNull value == some 0) then
    if allowNull then .ok .vnull
    else .err [fieldName ++ " is required"]
  else
    match value with
    | .vstr s =>
        let fmt : Bool × List String × JsValue :=
          if emailMatches s then (true, [], .vstr s) else (false, [message], .vnull)
        let (b, errs, vd) := emRulesGo s fieldName rules fmt.1 fmt.2.1 fmt.2.2
        if b then .ok vd else .err errs
    | _ => .err [fieldName ++ " must be a string"]

/-! ## File validator (`FileValidator`, the multi-file variant)

A rule pushed by `type(allowedExtensions, options)` carries both the
extension list (used in the message) and the MIME types resolved from the
static extension table at configuration time; an unrecognized extension
throws at configuration time, which `fileTypeRule` models with `Except`. -/

/-- `ext.toLowerCase()` for the ASCII extension strings the table handles. -/
def strToLower (s : String) : String := ⟨s.data.map Char.toLower⟩

/-- The static extension → MIME-type table (`ext.toLowerCase()` lookup). -/
def mimeLookup (ext : String) : Option String :=
  match strToLower ext with
  | "jpg" => some "image/jpg"
  | "jpeg" => some "image/jpeg"
  | "png" => some "image/png"
  | "gif" => some "image/gif"
  | "pdf" => some "application/pdf"
  | "txt" => some "text/plain"
  | "doc" => some "application/msword"
  | "docx" => some "application/vnd.openxmlformats-officedocument.wordprocessingml.document"
  | _ => none

/-- A rule held by the file validator. -/
inductive FileRule where
  | ftype (exts : List String) (mimes : List String) (msg : Option String)
  | fmaxSize (mb : Int) (msg : Option String)

/-- `FileValidator.type(allowedExtensions, options)`: resolves every
extension against the table; any unresolved extension is a
configuration-time fatal error (`throw new Error(...)`). -/
def fileTypeRule (exts : List String) (msg : Option String) : Except String FileRule :=
  let mimes := exts.filterMap mimeLookup
  let invalid := exts.filter (fun e => (mimeLookup e).isNone)
  if invalid.isEmpty then .ok (.ftype exts mimes msg)
  else .error ("Invalid file extensions provided: " ++ String.intercalate ", " invalid ++ ".")

/-- Body of a file rule closure, reading `file.type` / `file.size` from the
descriptor.  `allowedMimeTypes.includes(undefined)` is `false`, and
`undefined > n` is `false`, which the `none` cases reflect. -/
def fileRuleRun (r : FileRule) (ftype : Option String) (fsize : Option Int)
    (fieldName : String) : RuleOutcome :=
  match r with
  | .ftype exts mimes msg =>
      match ftype with
      | some t =>
          if mimes.contains t then .pass (.vobj ftype fsize)
          else .fail (jsOrMsg msg (fieldName ++ " must be of type: " ++ String.intercalate ", " exts))
      | none => .fail (jsOrMsg msg (fieldName ++ " must be of type: " ++ String.intercalate ", " exts))
  | .fmaxSize mb msg =>
      match fsize with
      | some sz =>
          if sz > mb * 1024 * 1024 then
            .fail (jsOrMsg msg (fieldName ++ " size must not exceed " ++ toString mb ++ " MB"))
          else .pass (.vobj ftype fsize)
      | none => .pass (.vobj ftype fsize)

/-- The per-file rule loop of `FileValidator.validate`: it `break`s at the
first failing rule, so at most one rule message is produced per file. -/
def fileRulesFirstFail (rules : List FileRule) (ftype : Option String)
    (fsize : Option Int) (fieldName : String) : Option String :=
  match rules with
  | [] => none
  | r :: rs =>
      match fileRuleRun r ftype fsize fieldName with
      | .fail e => some e
      | .pass _ => fileRulesFirstFail rs ftype fsize fieldName

/-- The element loop of `FileValidator.validate`.  The shape check is
`typeof file !== "object" || !file.type || !file.size` (so a `type` of `""`
or a `size` of `0` is "invalid format"); `typeof null === 'object'`, so a
`null` element reaches the `file.type` access and throws. -/
def fileLoop (rules : List FileRule) (fieldName : String) :
    List JsValue → Nat → List String → List JsValue → Bool →
    Except Unit (List String × List JsValue × Bool)
  | [], _, errs, vf, b => pure (errs, vf, b)
  | f :: fs, i, errs, vf, b =>
      let invalidMsg := fieldName ++ " " ++ toString i ++ " invalid format"
      match f with
      | .vnull => .error ()
      | .vobj t sz =>
          if (t.getD "" == "") || (sz.getD 0 == 0) then
            fileLoop rules fieldName fs (i + 1) (errs ++ [invalidMsg]) vf false
          else
            match fileRulesFirstFail rules t sz (fieldName ++ " " ++ toString i) with
            | some e => fileLoop rules fieldName fs (i + 1) (errs ++ [e]) vf false
            | none => fileLoop rules fieldName fs (i + 1) errs (vf ++ [f]) b
      | .varr _ =>
          fileLoop rules fieldName fs (i + 1) (errs ++ [invalidMsg]) vf false
      | _ =>
          fileLoop rules fieldName fs (i + 1) (errs ++ [invalidMsg]) vf false

/-- Result of `FileValidator.validate`: unlike the other validators, the
invalid shape is `{valid: false, errors, data: null}` with an explicit
`data: null`. -/
inductive FileResult where
  | ok (data : JsValue)
  | errWithNullData (errors : List String)

/-- `FileValidator.validate(files, options)`: nullability gate (null or
empty array), normalization of a single file to a one-element array, the
element loop, and the single-vs-array shaping of `data`
(`validatedFiles.length === 1 ? validatedFiles[0] : validatedFiles`). -/
def fileValidate (rules : List FileRule) (allowNull : Bool) (files : JsValue)
    (fieldNameOpt : Option String) : Except Unit FileResult :=
  let fieldName := fieldNameOpt.getD "file"
  let isEmptyArray : Bool := match files with | .varr [] => true | _ => false
  if files.isNullish || isEmptyArray then
    if allowNull then pure (.ok .vnull)
    else pure (.errWithNullData [fieldName ++ " is required"])
  else
    let fileArray := match files with | .varr es => es | f => [f]
    do
      let (errs, vf, b) ← fileLoop rules fieldName fileArray 0 [] [] true
      let finalData := match vf with | [f] => f | fs => JsValue.varr fs
      if b then pure (.ok finalData) else pure (.errWithNullData errs)

/-! ## Object schema (`ObjectSchema`, the variant with the
password-confirmation cross-field check) -/

/-- A configured field validator, as `parseData` calls it:
`validator.validate(value, { fieldName: key })`. -/
def FieldValidator : Type := JsValue → String → VResult

/-- `data[key]` on the input object: `undefined` when the key is missing. -/
def rawLookup (data : List (String × JsValue)) (k : String) : JsValue :=
  match data.find? (fun p => p.1 == k) with
  | some p => p.2
  | none => .vundefined

/-- `data[key] ?? null`. -/
def nullCoalesce (v : JsValue) : JsValue :=
  if v.isNullish then .vnull else v

/-- JavaScript `===` on the values the schema compares.  Objects and arrays
compare by reference; two distinctly-constructed ones are not identical, so
they are modelled as unequal. `NaN === NaN` is false. -/
def jsStrictEq : JsValue → JsValue → Bool
  | .vnull, .vnull => true
  | .vundefined, .vundefined => true
  | .vbool a, .vbool b => a == b
  | .vnum a, .vnum b => a == b
  | .vstr a, .vstr b => a == b
  | _, _ => false

/-- Assignment `m[k] = v` on a JavaScript object modelled as an association
list: replace the first entry with key `k`, or append. -/
def setKey {α : Type} : List (String × α) → String → α → List (String × α)
  | [], k, v => [(k, v)]
  | (k', v') :: t, k, v =>
      if k' = k then (k, v) :: t else (k', v') :: setKey t k v

/-- Lookup in the modelled object. -/
def getKey {α : Type} : List (String × α) → String → Option α
  | [], _ => none
  | (k', v') :: t, k => if k' = k then some v' else getKey t k

/-- `#validatePasswordConfirmation(data)` fails:
`data.password_confirmation !== undefined && data.password !== data.password_confirmation`. -/
def mismatchFires (data : List (String × JsValue)) : Bool :=
  let conf := rawLookup data "password_confirmation"
  !conf.isUndefined && !jsStrictEq (rawLookup data "password") conf

/-- Accumulated state of `parseData`'s loop.  `errors[key]` stores
`result.errors[0]`, which is `undefined` (`none`) if a validator produced an
empty error list. -/
structure SchemaState where
  errors : List (String × Option String)
  validData : List (String × JsValue)
  isValid : Bool

/-- One iteration of `parseData`'s `for (let key in this.schema)` loop:
when the key is `password`, the confirmation check runs first and a mismatch
writes `errors['password_confirmation']`; then the field's validator runs
and a failure records only the first error message under the key. -/
def schemaStep (data : List (String × JsValue)) (st : SchemaState)
    (field : String × FieldValidator) : SchemaState :=
  let key := field.1
  let st1 :=
    if key = "password" then
      if mismatchFires data then
        { st with
          errors := setKey st.errors "password_confirmation" (some "Password do not match"),
          isValid := false }
      else st
    else st
  let value := nullCoalesce (rawLookup data key)
  match field.2 value key with
  | .err es => { st1 with errors := setKey st1.errors key es.head?, isValid := false }
  | .ok d => { st1 with validData := setKey st1.validData key d }

/-- Result of `ObjectSchema.parseData`. -/
inductive SchemaResult where
  | ok (data : List (String × JsValue))
  | err (errors : List (String × Option String))

/-- `ObjectSchema.parseData(data)`: every schema field is processed in
definition order regardless of earlier failures; the result is valid iff no
field failed and no password mismatch fired. -/
def parseData (schema : List (String × FieldValidator))
    (data : List (String × JsValue)) : SchemaResult :=
  let fin := schema.foldl (schemaStep data) ⟨[], [], true⟩
  if fin.isValid then .ok fin.validData else .err fin.errors

/-! ## Derived notions used by the theorems -/

/-- The messages of the string rules that fail on a given string value. -/
def strFailMsgs (rules : List StrRule) (s : String) (fn : String) : List String :=
  rules.filterMap fun r =>
    match strRuleRun r (.vstr s) fn with
    | .ok (.fail e) => some e
    | _ => none

/-- The messages of the integer rules that fail on a given number (the rules
are invoked without a field name, as `validate` does). -/
def intFailMsgs (rules : List IntRule) (q : ℚ) : List String :=
  rules.filterMap fun r =>
    match intRuleRun r q none with
    | .fail e => some e
    | .pass _ => none

/-- The messages of the password rules that fail on a given string value. -/
def pwFailMsgs (rules : List PwRule) (s : String) (fn : String) : List String :=
  rules.filterMap fun r =>
    match pwRuleRun r s fn with
    | .fail e => some e
    | .pass _ => none

/-- The messages of the email `max` rules that fail on a given string. -/
def emFailMsgs (rules : List EmRule) (s : String) (fn : String) : List String :=
  rules.filterMap fun r =>
    match emRuleRun r s fn with
    | .fail e => some e
    | .pass _ => none

/-- A file descriptor, as the pair of its `type` and `size` properties. -/
def mkFile (d : Option String × Option Int) : JsValue := .vobj d.1 d.2

/-- The descriptor shape check of the file validator's loop:
`type` and `size` both truthy. -/
def shapeOk (d : Option String × Option Int) : Bool :=
  !(d.1.getD "" == "") && !(d.2.getD 0 == 0)

/-- Whether a single file rule passes on a descriptor (the pass/fail
branch of `fileRuleRun` does not depend on the field name). -/
def rulePassesB (r : FileRule) (t : Option String) (sz : Option Int) : Bool :=
  match fileRuleRun r t sz "" with
  | .pass _ => true
  | .fail _ => false

/-- Whether a descriptor passes every check of the file validator: the
shape check and all configured rules. -/
def elementPasses (rules : List FileRule) (d : Option String × Option Int) : Bool :=
  shapeOk d && rules.all (fun r => rulePassesB r d.1 d.2)

/-- A field validator that fails with two messages, like
`integer().min(18).positive()` on the value 15. -/
def c4AgeValidator : FieldValidator := fun _ _ =>
  .err ["age must be greater than or equal to 18", "age must be a positive number"]

/-- Input data for the age example. -/
def c4AgeData : List (String × JsValue) := [("age", JsValue.vnum 15)]

/-- A password_confirmation field validator failing with one message. -/
def c4ConfValidator : FieldValidator := fun _ _ =>
  .err ["password_confirmation must be at least 50 characters long."]

/-- A password field validator that succeeds. -/
def c4PassValidator : FieldValidator := fun _ _ => .ok (.vstr "a")

/-- Input with mismatching password and password_confirmation. -/
def c4MismatchData : List (String × JsValue) :=
  [("password", JsValue.vstr "a"), ("password_confirmation", JsValue.vstr "b")]

/-- `maxSize(5)` as configured in the multi-file example. -/
def c7MaxSizeRule : FileRule := .fmaxSize 5 none

/-- A descriptor that passes `maxSize(5)`. -/
def c7d1 : Option String × Option Int := (some "image/png", some 1000)

/-- A descriptor of 6 MiB, exceeding `maxSize(5)`. -/
def c7d2 : Option String × Option Int := (some "image/png", some 6291456)

/-! ## C1 -/

/-- C1: the claim states that for every validator kind `validate(null)`
without `nullable()` fails with a "required" message.  The integer
validator does behave that way, but the string validator's `validate(null)`
with no rules returns `{valid: true, data: null}` even though `nullable()`
was never called: `validateType` lets `null` through and the required
check's guard `value != null && value.length === 0` skips `null`. -/
theorem C1_string_null_slips_through :
    stringValidate [] false false JsValue.vnull none
      = Except.ok (VResult.ok JsValue.vnull) ∧
    integerValidate [] false JsValue.vnull none
      = VResult.err ["value is required"] ∧
    integerValidate [] true JsValue.vnull none = VResult.ok JsValue.vnull :=
  ⟨rfl, rfl, rfl⟩

/-! ## C2 -/

/-- C2 counterexample: `validate("42")` with no rules succeeds, but its
`data` is the original string `"42"`, not the number 42: `validData` is
initialized from the raw argument and only a passing rule's return value
overwrites it. -/
theorem C2_counterexample_data_is_original_string :
    integerValidate [] false (JsValue.vstr "42") none
      = VResult.ok (JsValue.vstr "42") := rfl

/-- C2 amended: `validate("42")` with no rules succeeds with the original
string as `data` (the coerced number 42 is only used for the type check and
as rule input — with a passing rule such as `min(1)`, `data` is the number
42); `validate("abc")` fails with the "must be an integer" message; and
`validate(-1)` with `positive()` fails. -/
theorem C2_integer_validator_examples :
    integerValidate [] false (JsValue.vstr "42") none
      = VResult.ok (JsValue.vstr "42") ∧
    integerValidate [IntRule.min 1 none] false (JsValue.vstr "42") none
      = VResult.ok (JsValue.vnum 42) ∧
    integerValidate [] false (JsValue.vstr "abc") none
      = VResult.err ["value must be an integer"] ∧
    integerValidate [IntRule.positive none] false (JsValue.vnum (-1)) none
      = VResult.err ["undefined must be a positive number"] :=
  ⟨rfl, rfl, rfl, rfl⟩

/-! ## C5 -/

/-- C5: the claim states every rule invocation receives the field name and
the integer validator's rule messages contain the `fieldName` passed in
options.  But `IntegerValidator.validate` invokes each rule as
`rule(value)`, so the closure's `fieldName` parameter is `undefined` and
the produced message begins with the text "undefined" instead of the field
name "age". -/
theorem C5_integer_rules_get_no_fieldName :
    integerValidate [IntRule.min 5 none] false (JsValue.vnum 3) (some "age")
      = VResult.err ["undefined must be greater than or equal to 5"] := rfl

/-! ## C6 -/

/-- C6: the claim states `validate` never raises an exception.  But the
string validator lets `null` reach its rule loop (see C1), and the `min`
rule closure then evaluates `null.length`, which throws a `TypeError`:
`validate(null)` on a non-nullable string validator with `min(3)` throws
instead of returning a ValidationResult. -/
theorem C6_string_validator_throws_on_null :
    stringValidate [StrRule.min 3 none] false false JsValue.vnull none
      = Except.error () := rfl

/-! ## C9 -/

/-- C9: the claim states string values are trimmed before `min`/`max` run
and the trimmed value is returned as `data`.  But `validateRules` passes
the raw value to every rule, so `validate("  ab  ")` with `min(3)` succeeds
(raw length 6 ≥ 3, where the claim expects trimmed length 2 to fail) and
`validate("  abcd  ")` succeeds with the *untrimmed* `data` `"  abcd  "`
(the claim expects `"abcd"`). -/
theorem C9_string_validator_does_not_trim :
    stringValidate [StrRule.min 3 none] false false (JsValue.vstr "  ab  ") none
      = Except.ok (VResult.ok (JsValue.vstr "  ab  ")) ∧
    stringValidate [StrRule.min 3 none] false false (JsValue.vstr "  abcd  ") none
      = Except.ok (VResult.ok (JsValue.vstr "  abcd  ")) :=
  ⟨rfl, rfl⟩

/-! ## C3 -/

/-- On a string value the string rule closures never throw. -/
lemma strRuleRun_vstr_total (r : StrRule) (s fn : String) :
    ∃ o : RuleOutcome, strRuleRun r (.vstr s) fn = .ok o := by
  cases r <;> simp only [strRuleRun, jsLength, jsLenNonNull, bind, Except.bind] <;> split
  all_goals exact ⟨_, rfl⟩

/-- The password rule loop runs every rule and collects the message of each
failing rule, in order. -/
lemma pwRulesGo_spec (s fn : String) (rules : List PwRule) :
    ∀ (b : Bool) (errs : List String) (vd : JsValue), ∃ vd',
      pwRulesGo s fn rules b errs vd
        = (b && (pwFailMsgs rules s fn).isEmpty, errs ++ pwFailMsgs rules s fn, vd') := by
  induction rules with
  | nil => intro b errs vd; exact ⟨vd, by simp [pwRulesGo, pwFailMsgs]⟩
  | cons r rs ih =>
      intro b errs vd
      cases h : pwRuleRun r s fn with
      | fail e =>
          obtain ⟨vd', hv⟩ := ih false (errs ++ [e]) .vnull
          exact ⟨vd', by simp [pwRulesGo, h, hv, pwFailMsgs, List.filterMap_cons]⟩
      | pass v =>
          obtain ⟨vd', hv⟩ := ih b errs v
          exact ⟨vd', by simp [pwRulesGo, h, hv, pwFailMsgs, List.filterMap_cons]⟩

/-- The string rule loop (`validateRules`) runs every rule on a string value
and collects the message of each failing rule, in order. -/
lemma validateRulesGo_spec (s fn : String) (rules : List StrRule) :
    ∀ (b : Bool) (errs : List String) (vd : JsValue), ∃ vd',
      validateRulesGo (.vstr s) fn rules b errs vd
        = .ok ⟨b && (strFailMsgs rules s fn).isEmpty, errs ++ strFailMsgs rules s fn, vd'⟩ := by
  induction rules with
  | nil =>
      intro b errs vd
      exact ⟨vd, by simp [validateRulesGo, strFailMsgs, pure, Except.pure]⟩
  | cons r rs ih =>
      intro b errs vd
      obtain ⟨o, ho⟩ := strRuleRun_vstr_total r s fn
      cases o with
      | fail e =>
          obtain ⟨vd', hv⟩ := ih false (errs ++ [e]) .vnull
          refine ⟨vd', ?_⟩
          simp [validateRulesGo, ho, hv, strFailMsgs, List.filterMap_cons, bind, Except.bind]
      | pass v =>
          obtain ⟨vd', hv⟩ := ih b errs v
          refine ⟨vd', ?_⟩
          simp [validateRulesGo, ho, hv, strFailMsgs, List.filterMap_cons, bind, Except.bind]

/-- The integer rule loop runs every rule and collects the message of each
failing rule, in order. -/
lemma intRulesGo_spec (q : ℚ) (rules : List IntRule) :
    ∀ (b : Bool) (errs : List String) (vd : JsValue), ∃ vd',
      intRulesGo q rules b errs vd
        = (b && (intFailMsgs rules q).isEmpty, errs ++ intFailMsgs rules q, vd') := by
  induction rules with
  | nil => intro b errs vd; exact ⟨vd, by simp [intRulesGo, intFailMsgs]⟩
  | cons r rs ih =>
      intro b errs vd
      cases h : intRuleRun r q none with
      | fail e =>
          obtain ⟨vd', hv⟩ := ih false (errs ++ [e]) .vnull
          exact ⟨vd', by simp [intRulesGo, h, hv, intFailMsgs, List.filterMap_cons]⟩
      | pass v =>
          obtain ⟨vd', hv⟩ := ih b errs v
          exact ⟨vd', by simp [intRulesGo, h, hv, intFailMsgs, List.filterMap_cons]⟩

/-- The email rule loop runs every rule and collects the message of each
failing rule, in order. -/
lemma emRulesGo_spec (s fn : String) (rules : List EmRule) :
    ∀ (b : Bool) (errs : List String) (vd : JsValue), ∃ vd',
      emRulesGo s fn rules b errs vd
        = (b && (emFailMsgs rules s fn).isEmpty, errs ++ emFailMsgs rules s fn, vd') := by
  induction rules with
  | nil => intro b errs vd; exact ⟨vd, by simp [emRulesGo, emFailMsgs]⟩
  | cons r rs ih =>
      intro b errs vd
      cases h : emRuleRun r s fn with
      | fail e =>
          obtain ⟨vd', hv⟩ := ih false (errs ++ [e]) .vnull
          exact ⟨vd', by simp [emRulesGo, h, hv, emFailMsgs, List.filterMap_cons]⟩
      | pass v =>
          obtain ⟨vd', hv⟩ := ih b errs v
          exact ⟨vd', by simp [emRulesGo, h, hv, emFailMsgs, List.filterMap_cons]⟩

/-- C3 counterexample: the claim states that for *every* validator a rule
still runs after an earlier rule failed.  The file validator's rule loop
`break`s at the first failing rule: with `type(['png'])` followed by
`maxSize(1)` and a 2 MiB PDF descriptor, the `maxSize` rule would also fail
(second conjunct), yet `validate` reports only the `type` rule's message. -/
theorem C3_counterexample_file_rules_short_circuit :
    fileTypeRule ["png"] none = Except.ok (FileRule.ftype ["png"] ["image/png"] none) ∧
    rulePassesB (FileRule.fmaxSize 1 none) (some "application/pdf") (some 2097152) = false ∧
    fileValidate [FileRule.ftype ["png"] ["image/png"] none, FileRule.fmaxSize 1 none] false
        (JsValue.varr [JsValue.vobj (some "application/pdf") (some 2097152)]) none
      = Except.ok (FileResult.errWithNullData ["file 0 must be of type: png"]) :=
  ⟨rfl, rfl, rfl⟩

/-- C3 amended: for the password, email and integer validators every
configured rule executes in insertion order even after earlier failures, and
every failing rule appends its message to the returned `errors` (so the
password example with `min(8)` and `containsSpecialChar()` on `"abcdefg"`
returns both messages).  For the string validator all rules likewise execute
and `validateRules` collects every failing message in order, but `validate`
never clears its `isValid` flag in that branch, so the collected messages
are discarded and `{valid: true, data: null}` is returned.  The file
validator stops at the first failing rule per file (see the
counterexample). -/
theorem C3_all_rules_execute_and_collect (s : String) (hs : s.length ≠ 0) :
    (∀ (rules : List PwRule) (fnOpt : Option String),
        pwFailMsgs rules s (fnOpt.getD "Password") ≠ [] →
        passwordValidate rules false (JsValue.vstr s) fnOpt
          = VResult.err (pwFailMsgs rules s (fnOpt.getD "Password"))) ∧
    (∀ (rules : List StrRule) (fnOpt : Option String),
        strFailMsgs rules s (fnOpt.getD "value") ≠ [] →
        (∃ vd, validateRules (JsValue.vstr s) (fnOpt.getD "value") rules
          = Except.ok ⟨false, strFailMsgs rules s (fnOpt.getD "value"), vd⟩) ∧
        stringValidate rules false false (JsValue.vstr s) fnOpt
          = Except.ok (VResult.ok JsValue.vnull)) ∧
    (∀ (rules : List EmRule) (fnOpt : Option String),
        emFailMsgs rules s (fnOpt.getD "Email") ≠ [] →
        emailValidate rules false none (JsValue.vstr s) fnOpt
          = VResult.err ((if emailMatches s then [] else ["Email must be valid"])
              ++ emFailMsgs rules s (fnOpt.getD "Email"))) ∧
    (∀ (rules : List IntRule) (n : Int) (fnOpt : Option String),
        intFailMsgs rules (n : ℚ) ≠ [] →
        integerValidate rules false (JsValue.vnum (n : ℚ)) fnOpt
          = VResult.err (intFailMsgs rules (n : ℚ))) := by
  refine ⟨?pw, ?str, ?em, ?int⟩
  case pw =>
      intro rules fnOpt hne
      obtain ⟨vd', hv⟩ := pwRulesGo_spec s (fnOpt.getD "Password") rules true [] (.vstr s)
      simp [passwordValidate, jsLenNonNull, JsValue.isNullish, hs, hv,
        List.isEmpty_iff, hne]
  case str =>
      intro rules fnOpt hne
      obtain ⟨vd', hv⟩ := validateRulesGo_spec s (fnOpt.getD "value") rules true [] (.vstr s)
      have hie : (strFailMsgs rules s (fnOpt.getD "value")).isEmpty = false := by
        cases hE : (strFailMsgs rules s (fnOpt.getD "value")).isEmpty
        · rfl
        · exact absurd (List.isEmpty_iff.mp hE) hne
      refine ⟨⟨vd', ?_⟩, ?_⟩
      · simpa [validateRules, hie] using hv
      · simp [stringValidate, validateType, validateRules, JsValue.isNullish, JsValue.isStr,
          jsLenNonNull, hs, hv, hie, bind, Except.bind, pure, Except.pure]
  case em =>
      intro rules fnOpt hne
      by_cases hm : emailMatches s
      · obtain ⟨vd', hv⟩ := emRulesGo_spec s (fnOpt.getD "Email") rules true [] (.vstr s)
        simp [emailValidate, jsLenNonNull, JsValue.isNullish, hs, hm, hv,
          List.isEmpty_iff, hne]
      · obtain ⟨vd', hv⟩ :=
          emRulesGo_spec s (fnOpt.getD "Email") rules false ["Email must be valid"] .vnull
        simp [emailValidate, jsLenNonNull, JsValue.isNullish, hs, hm, hv, jsOrMsg]
  case int =>
      intro rules n fnOpt hne
      obtain ⟨vd', hv⟩ := intRulesGo_spec (n : ℚ) rules true [] (.vnum (n : ℚ))
      simp [integerValidate, jsLenNonNull, JsValue.isNullish, Rat.den_intCast, hv,
        List.isEmpty_iff, hne]

/-- C3 witness: the password validator with `min(8)` and
`containsSpecialChar()` on `"abcdefg"` evaluates both rules and returns both
error messages. -/
theorem C3_witness :
    "abcdefg".length ≠ 0 ∧
    pwFailMsgs [PwRule.min 8, PwRule.containsSpecialChar] "abcdefg" "Password" ≠ [] ∧
    passwordValidate [PwRule.min 8, PwRule.containsSpecialChar] false
        (JsValue.vstr "abcdefg") none
      = VResult.err ["Password must be at least 8 characters long.",
                     "Password must contain at least one special character."] := by
  refine ⟨by decide, by decide, ?_⟩
  exact (C3_all_rules_execute_and_collect "abcdefg" (by decide)).1
    [PwRule.min 8, PwRule.containsSpecialChar] none (by decide)

/-! ## C4 -/

/-- Reading back the key just assigned. -/
lemma getKey_setKey_same {α : Type} (m : List (String × α)) (k : String) (v : α) :
    getKey (setKey m k v) k = some v := by
  induction m with
  | nil => simp [setKey, getKey]
  | cons p t ih =>
      by_cases h : p.1 = k
      · simp [setKey, getKey, h]
      · simp [setKey, getKey, h, ih]

/-- Assigning one key leaves the others unchanged. -/
lemma getKey_setKey_other {α : Type} (m : List (String × α)) (k k2 : String) (v : α)
    (h : k ≠ k2) : getKey (setKey m k v) k2 = getKey m k2 := by
  induction m with
  | nil => simp [setKey, getKey, h]
  | cons p t ih =>
      by_cases hp : p.1 = k
      · simp [setKey, getKey, hp, h]
      · simp [setKey, getKey, hp, ih]

/-- A schema suffix that never assigns `errors[k]` — no field is named `k`,
and no `password` field can fire the confirmation overwrite onto `k` —
leaves `errors[k]` unchanged. -/
lemma parseData_foldl_preserves (data : List (String × JsValue)) (k : String) :
    ∀ (sch : List (String × FieldValidator)) (st : SchemaState),
      (∀ p ∈ sch, p.1 ≠ k) →
      (∀ p ∈ sch,
        ¬(p.1 = "password" ∧ k = "password_confirmation" ∧ mismatchFires data = true)) →
      getKey (sch.foldl (schemaStep data) st).errors k = getKey st.errors k := by
  intro sch
  induction sch with
  | nil => intro st _ _; rfl
  | cons f t ih =>
      intro st hk hpw
      obtain ⟨k1, v1⟩ := f
      rw [List.foldl_cons, ih _ (fun p hp => hk p (List.mem_cons_of_mem _ hp))
        (fun p hp => hpw p (List.mem_cons_of_mem _ hp))]
      have hfk : k1 ≠ k := hk _ (List.mem_cons_self _ t)
      have hfpw := hpw _ (List.mem_cons_self _ t)
      by_cases h1 : k1 = "password"
      · subst h1
        have hnot : ¬(k = "password_confirmation" ∧ mismatchFires data = true) := by
          intro hc; exact hfpw ⟨rfl, hc.1, hc.2⟩
        by_cases h2 : mismatchFires data
        · have hkpc : "password_confirmation" ≠ k := by
            intro he; exact hnot ⟨he.symm, h2⟩
          cases hres : v1 (nullCoalesce (rawLookup data "password")) "password" with
          | err es =>
              simp [schemaStep, h2, hres, getKey_setKey_other _ _ _ _ hfk,
                getKey_setKey_other _ _ _ _ hkpc]
          | ok d =>
              simp [schemaStep, h2, hres, getKey_setKey_other _ _ _ _ hkpc]
        · cases hres : v1 (nullCoalesce (rawLookup data "password")) "password" with
          | err es =>
              simp [schemaStep, h2, hres, getKey_setKey_other _ _ _ _ hfk]
          | ok d => simp [schemaStep, h2, hres]
      · cases hres : v1 (nullCoalesce (rawLookup data k1)) k1 with
        | err es => simp [schemaStep, h1, hres, getKey_setKey_other _ _ _ _ hfk]
        | ok d => simp [schemaStep, h1, hres]

/-- Once some field failed, the remaining iterations cannot make the result
valid again. -/
lemma parseData_foldl_invalid (data : List (String × JsValue)) :
    ∀ (sch : List (String × FieldValidator)) (st : SchemaState),
      st.isValid = false → (sch.foldl (schemaStep data) st).isValid = false := by
  intro sch
  induction sch with
  | nil => intro st h; exact h
  | cons f t ih =>
      intro st h
      rw [List.foldl_cons]
      apply ih
      obtain ⟨k1, v1⟩ := f
      by_cases h1 : k1 = "password" <;> by_cases h2 : mismatchFires data <;>
        simp only [schemaStep, h1, h2, if_true, if_false, reduceIte] <;>
        split <;> simp [h]

/-- C4 counterexample: the claim states `errors[key]` is always exactly the
first element of the failing validator's `errors`.  With the schema keys in
the order `password_confirmation`, `password`, a mismatching input makes
the confirmation check (run while iterating the `password` key) *overwrite*
`errors['password_confirmation']` with "Password do not match", even though
that field's own validator failed with a different first message (second
conjunct). -/
theorem C4_counterexample_mismatch_overwrite :
    parseData [("password_confirmation", c4ConfValidator), ("password", c4PassValidator)]
        c4MismatchData
      = SchemaResult.err [("password_confirmation", some "Password do not match")] ∧
    c4ConfValidator (nullCoalesce (rawLookup c4MismatchData "password_confirmation"))
        "password_confirmation"
      = VResult.err ["password_confirmation must be at least 50 characters long."] ∧
    some "Password do not match"
      ≠ some "password_confirmation must be at least 50 characters long." :=
  ⟨rfl, rfl, by decide⟩

/-- C4 amended: for every schema and input, when a schema field `k`'s
validator fails, `parseData` records exactly the first element of that
validator's `errors` array as `errors[k]` (`none` modelling `undefined` for
an empty array) — *unless* `k` is `password_confirmation` and a later
`password` field's mismatch check overwrites it (see the counterexample).
Any other schema field's processing, before or after `k`, leaves the
recorded message intact, and the overall result is invalid. -/
theorem C4_first_error_recorded (pre post : List (String × FieldValidator))
    (data : List (String × JsValue)) (k : String) (v : FieldValidator)
    (es : List String)
    (hfail : v (nullCoalesce (rawLookup data k)) k = VResult.err es)
    (hpost_k : ∀ p ∈ post, p.1 ≠ k)
    (hpost_pw : ∀ p ∈ post,
      ¬(p.1 = "password" ∧ k = "password_confirmation" ∧ mismatchFires data = true)) :
    ∃ em, parseData (pre ++ (k, v) :: post) data = SchemaResult.err em ∧
      getKey em k = some es.head? := by
  unfold parseData
  rw [List.foldl_append, List.foldl_cons]
  set st1 := pre.foldl (schemaStep data) ⟨[], [], true⟩ with hst1
  have h2errors : getKey (schemaStep data st1 (k, v)).errors k = some es.head? := by
    by_cases h1 : k = "password"
    · subst h1
      by_cases h2 : mismatchFires data <;>
        simp [schemaStep, h2, hfail, getKey_setKey_same]
    · by_cases h2 : mismatchFires data <;>
        simp [schemaStep, h1, h2, hfail, getKey_setKey_same]
  have h2valid : (schemaStep data st1 (k, v)).isValid = false := by
    by_cases h1 : k = "password"
    · subst h1
      by_cases h2 : mismatchFires data <;> simp [schemaStep, h2, hfail]
    · by_cases h2 : mismatchFires data <;> simp [schemaStep, h1, h2, hfail]
  have hpres := parseData_foldl_preserves data k post (schemaStep data st1 (k, v))
    hpost_k hpost_pw
  have hinv := parseData_foldl_invalid data post (schemaStep data st1 (k, v)) h2valid
  refine ⟨(List.foldl (schemaStep data) (schemaStep data st1 (k, v)) post).errors,
    ?_, ?_⟩
  · simp [hinv]
  · rw [hpres, h2errors]

/-- C4 witness: the schema `{age: integer().min(18).positive()}` on
`{age: 15}` records exactly the first of the two computed error messages
under `age`. -/
theorem C4_witness :
    c4AgeValidator (nullCoalesce (rawLookup c4AgeData "age")) "age"
      = VResult.err ["age must be greater than or equal to 18",
                     "age must be a positive number"] ∧
    ∃ em, parseData [("age", c4AgeValidator)] c4AgeData = SchemaResult.err em ∧
      getKey em "age" = some (some "age must be greater than or equal to 18") := by
  refine ⟨rfl, ?_⟩
  exact C4_first_error_recorded [] [] c4AgeData "age" c4AgeValidator
    ["age must be greater than or equal to 18", "age must be a positive number"]
    rfl (by simp) (by simp)

/-! ## C7 -/

/-- Whether a file rule passes does not depend on the field name (the field
name only appears in the failure message). -/
lemma fileRuleRun_pass_indep (r : FileRule) (t : Option String) (sz : Option Int)
    (fn : String) :
    (match fileRuleRun r t sz fn with
     | .pass _ => true
     | .fail _ => false) = rulePassesB r t sz := by
  cases r with
  | ftype exts mimes msg =>
      cases t with
      | none => simp [fileRuleRun, rulePassesB]
      | some tv =>
          by_cases hm : tv ∈ mimes <;> simp [fileRuleRun, rulePassesB, hm]
  | fmaxSize mb msg =>
      cases sz with
      | none => simp [fileRuleRun, rulePassesB]
      | some z =>
          by_cases hm : mb * 1024 * 1024 < z <;> simp [fileRuleRun, rulePassesB, hm]

/-- The per-file rule loop finds no failure exactly when every rule passes
on the descriptor. -/
lemma fileRulesFirstFail_none_iff (rules : List FileRule) (t : Option String)
    (sz : Option Int) (fn : String) :
    fileRulesFirstFail rules t sz fn = none
      ↔ rules.all (fun r => rulePassesB r t sz) = true := by
  induction rules with
  | nil => simp [fileRulesFirstFail]
  | cons r rs ih =>
      cases h : fileRuleRun r t sz fn with
      | fail e =>
          have hP : rulePassesB r t sz = false := by
            rw [← fileRuleRun_pass_indep r t sz fn, h]
          simp [fileRulesFirstFail, h, List.all_cons, hP]
      | pass v =>
          have hP : rulePassesB r t sz = true := by
            rw [← fileRuleRun_pass_indep r t sz fn, h]
          simp [fileRulesFirstFail, h, List.all_cons, hP, ih]

/-- The element loop of the file validator on a batch of descriptors: it
never throws, collects exactly the passing descriptors into the validated
list, and the batch flag stays true only if every element passes. -/
lemma fileLoop_spec (rules : List FileRule) (fn : String) :
    ∀ (ds : List (Option String × Option Int)) (i : Nat) (errs : List String)
      (vf : List JsValue) (b : Bool),
      ∃ errs', fileLoop rules fn (ds.map mkFile) i errs vf b
        = .ok (errs', vf ++ (ds.filter (elementPasses rules)).map mkFile,
               b && ds.all (elementPasses rules)) := by
  intro ds
  induction ds with
  | nil => intro i errs vf b; exact ⟨errs, by simp [fileLoop, pure, Except.pure]⟩
  | cons d ds ih =>
      intro i errs vf b
      obtain ⟨t, sz⟩ := d
      by_cases hshape : shapeOk (t, sz) = true
      · have hc : ((t.getD "" == "") || (sz.getD 0 == 0)) = false := by
          cases hA : (t.getD "" == "") <;> cases hB : (sz.getD 0 == 0) <;>
            simp_all [shapeOk]
        cases hf : fileRulesFirstFail rules t sz (fn ++ " " ++ toString i) with
        | some e =>
            have hnall : rules.all (fun r => rulePassesB r t sz) = false := by
              cases hA : rules.all (fun r => rulePassesB r t sz)
              · rfl
              · have hn := (fileRulesFirstFail_none_iff rules t sz
                  (fn ++ " " ++ toString i)).mpr hA
                rw [hf] at hn
                exact Option.noConfusion hn
            have hel : elementPasses rules (t, sz) = false := by
              simp [elementPasses, hnall]
            obtain ⟨errs', h⟩ := ih (i + 1) (errs ++ [e]) vf false
            exact ⟨errs', by simp [fileLoop, mkFile, hc, hf, h, hel]⟩
        | none =>
            have hel : elementPasses rules (t, sz) = true := by
              simp [elementPasses, hshape,
                (fileRulesFirstFail_none_iff rules t sz _).mp hf]
            obtain ⟨errs', h⟩ := ih (i + 1) errs (vf ++ [mkFile (t, sz)]) b
            simp only [mkFile] at h
            exact ⟨errs', by simp [fileLoop, mkFile, hc, hf, h, hel, Bool.and_assoc]⟩
      · have hsf : shapeOk (t, sz) = false := by
          cases hA : shapeOk (t, sz)
          · rfl
          · exact absurd hA hshape
        have hc : ((t.getD "" == "") || (sz.getD 0 == 0)) = true := by
          cases hA : (t.getD "" == "") <;> cases hB : (sz.getD 0 == 0) <;>
            simp_all [shapeOk]
        have hel : elementPasses rules (t, sz) = false := by
          simp [elementPasses, hsf]
        obtain ⟨errs', h⟩ := ih (i + 1)
          (errs ++ [fn ++ " " ++ toString i ++ " invalid format"]) vf false
        exact ⟨errs', by simp [fileLoop, mkFile, hc, h, hel]⟩

/-- C7: in multi-file mode a batch of descriptors yields `valid:true` with
the validated elements as `data` (a single element is unwrapped) only when
every element passes the shape check and all rules; if any element fails,
the whole call returns `valid:false` with `data:null`. -/
theorem C7_multi_file_all_or_nothing (rules : List FileRule)
    (ds : List (Option String × Option Int)) (fnOpt : Option String) :
    (ds ≠ [] → ds.all (elementPasses rules) = true →
      fileValidate rules false (JsValue.varr (ds.map mkFile)) fnOpt
        = Except.ok (FileResult.ok
            (match ds.map mkFile with
             | [f] => f
             | fs => JsValue.varr fs))) ∧
    ((∃ d ∈ ds, elementPasses rules d = false) →
      ∃ errs, fileValidate rules false (JsValue.varr (ds.map mkFile)) fnOpt
        = Except.ok (FileResult.errWithNullData errs)) := by
  constructor
  · intro hne hall
    obtain ⟨errs', h⟩ := fileLoop_spec rules (fnOpt.getD "file") ds 0 [] [] true
    have hfilter : ds.filter (elementPasses rules) = ds :=
      List.filter_eq_self.mpr (by simpa [List.all_eq_true] using hall)
    rw [hfilter, hall] at h
    cases hds : ds with
    | nil => exact absurd hds hne
    | cons d0 ds0 =>
        subst hds
        simp only [List.map_cons] at h
        simp [fileValidate, JsValue.isNullish, bind, Except.bind, pure, Except.pure, h]
  · rintro ⟨d, hd, hdfail⟩
    have hne : ds ≠ [] := List.ne_nil_of_mem hd
    have hall : ds.all (elementPasses rules) = false := by
      cases hA : ds.all (elementPasses rules)
      · rfl
      · exact absurd (List.all_eq_true.mp hA d hd) (by simp [hdfail])
    obtain ⟨errs', h⟩ := fileLoop_spec rules (fnOpt.getD "file") ds 0 [] [] true
    rw [hall] at h
    refine ⟨errs', ?_⟩
    cases hds : ds with
    | nil => exact absurd hds hne
    | cons d0 ds0 =>
        subst hds
        simp only [List.map_cons] at h
        simp [fileValidate, JsValue.isNullish, bind, Except.bind, pure, Except.pure, h]

/-- C7 witness: with `maxSize(5)` and two descriptors, the second being 6
MiB, the batch fails as a whole. -/
theorem C7_witness :
    (∃ d ∈ [c7d1, c7d2], elementPasses [c7MaxSizeRule] d = false) ∧
    (∃ errs, fileValidate [c7MaxSizeRule] false
        (JsValue.varr ([c7d1, c7d2].map mkFile)) none
      = Except.ok (FileResult.errWithNullData errs)) := by
  have hfail : elementPasses [c7MaxSizeRule] c7d2 = false := rfl
  exact ⟨⟨c7d2, by simp, hfail⟩,
    (C7_multi_file_all_or_nothing [c7MaxSizeRule] [c7d1, c7d2] none).2
      ⟨c7d2, by simp, hfail⟩⟩

/-! ## C8 -/

/-- The executable regex matcher accepts exactly the decomposition language
described by the specification. -/
lemma emailMatches_iff (s : String) : emailMatches s = true ↔ EmailLang s := by
  constructor
  · intro h
    rw [emailMatches, List.any_eq_true] at h
    obtain ⟨⟨l, rest1⟩, hmem, hf⟩ := h
    rw [splitsList, List.mem_zip_inits_tails] at hmem
    simp only at hf
    split at hf
    case h_2 => exact absurd hf (by simp)
    case h_1 rest =>
      rw [Bool.and_eq_true, Bool.and_eq_true, List.any_eq_true] at hf
      obtain ⟨⟨hl0, hl1⟩, ⟨⟨d, rest2⟩, hmem2, hg⟩⟩ := hf
      rw [splitsList, List.mem_zip_inits_tails] at hmem2
      simp only at hg
      split at hg
      case h_2 => exact absurd hg (by simp)
      case h_1 t =>
        rw [Bool.and_eq_true, Bool.and_eq_true, Bool.and_eq_true] at hg
        obtain ⟨⟨⟨hd0, hd1⟩, hd2⟩, hd3⟩ := hg
        refine ⟨l, d, t, ?_, ?_, ?_, ?_, ?_, ?_, ?_⟩
        · rw [← hmem, ← hmem2]
        · simpa using hl0
        · exact List.all_eq_true.mp hl1
        · simpa using hd0
        · exact List.all_eq_true.mp hd1
        · exact of_decide_eq_true hd2
        · exact List.all_eq_true.mp hd3
  · rintro ⟨l, d, t, hs, hl, hlc, hd, hdc, ht2, hta⟩
    rw [emailMatches, List.any_eq_true]
    refine ⟨(l, '@' :: (d ++ '.' :: t)), ?_, ?_⟩
    · rw [splitsList, List.mem_zip_inits_tails, ← hs]
    · simp only
      rw [Bool.and_eq_true, Bool.and_eq_true, List.any_eq_true]
      refine ⟨⟨by simpa using hl, List.all_eq_true.mpr hlc⟩,
        ⟨(d, '.' :: t), ?_, ?_⟩⟩
      · rw [splitsList, List.mem_zip_inits_tails]
      · simp only
        rw [Bool.and_eq_true, Bool.and_eq_true, Bool.and_eq_true]
        exact ⟨⟨⟨by simpa using hd, List.all_eq_true.mpr hdc⟩,
          decide_eq_true ht2⟩, List.all_eq_true.mpr hta⟩

/-- C8 counterexample: the claim asserts both a TLD of at least 2 letters
and that `validate("a@b.c")` succeeds.  The regex requires `[a-zA-Z]{2,}`
after the last dot, so the one-letter TLD of `"a@b.c"` is rejected with the
format message, while `"a@b.co"` is accepted. -/
theorem C8_counterexample_one_letter_tld :
    emailValidate [] false none (JsValue.vstr "a@b.c") none
      = VResult.err ["Email must be valid"] ∧
    emailValidate [] false none (JsValue.vstr "a@b.co") none
      = VResult.ok (JsValue.vstr "a@b.co") :=
  ⟨rfl, rfl⟩

/-- C8 amended: with no `max` rules configured, the email validator accepts
a non-empty string exactly when it matches the `local@domain.tld` language
(ASCII local part over letters/digits/`._%+-`, domain over
letters/digits/`.-`, TLD of ≥ 2 letters), rejecting every other non-empty
string — e.g. `"not-an-email"` and the one-letter-TLD `"a@b.c"` — with the
format message `"Email must be valid"`; `"a@b.co"` succeeds. -/
theorem C8_email_format_characterization (s : String) (hs : s ≠ "") :
    (emailValidate [] false none (JsValue.vstr s) none
      = if emailMatches s then VResult.ok (JsValue.vstr s)
        else VResult.err ["Email must be valid"]) ∧
    (emailMatches s = true ↔ EmailLang s) := by
  refine ⟨?_, emailMatches_iff s⟩
  have hlen : s.length ≠ 0 := by
    intro h0
    exact hs (by cases s with
      | mk cs => cases cs with
        | nil => rfl
        | cons c cs' => exact absurd h0 (by simp [String.length]))
  by_cases hm : emailMatches s <;>
    simp [emailValidate, JsValue.isNullish, jsLenNonNull, hlen, jsOrMsg, hm, emRulesGo]

/-- C8 witness: the characterization applied to `"a@b.co"`, which the
validator accepts. -/
theorem C8_witness :
    "a@b.co" ≠ "" ∧
    ((emailValidate [] false none (JsValue.vstr "a@b.co") none
      = if emailMatches "a@b.co" then VResult.ok (JsValue.vstr "a@b.co")
        else VResult.err ["Email must be valid"]) ∧
     (emailMatches "a@b.co" = true ↔ EmailLang "a@b.co")) :=
  ⟨by decide, C8_email_format_characterization "a@b.co" (by decide)⟩

/-! ## C10 -/

/-- A decimal digit is not JavaScript whitespace. -/
lemma digit_not_ws {c : Char} (h : c.isDigit = true) : c.isWhitespace = false := by
  cases hw : c.isWhitespace
  · rfl
  · exfalso
    simp only [Char.isWhitespace, Bool.or_eq_true, decide_eq_true_eq] at hw
    rcases hw with ((rfl | rfl) | rfl) | rfl <;> exact absurd h (by decide)

/-- A list starting with a digit has no sign to strip. -/
lemma jsParseSign_digit {d : Char} (l : List Char) (h : d.isDigit = true) :
    jsParseSign (d :: l) = (1, d :: l) := by
  rw [jsParseSign.eq_def]
  split
  · rename_i t heq
    injection heq with h1 _
    subst h1
    exact absurd h (by decide)
  · rename_i t heq
    injection heq with h1 _
    subst h1
    exact absurd h (by decide)
  · rfl

/-- `takeWhile` runs through a prefix on which the predicate holds. -/
lemma takeWhile_append_of_all {α : Type} (p : α → Bool) (l1 l2 : List α)
    (h : ∀ a ∈ l1, p a = true) :
    (l1 ++ l2).takeWhile p = l1 ++ l2.takeWhile p := by
  induction l1 with
  | nil => simp
  | cons a t ih =>
      simp [List.takeWhile_cons, h a (by simp),
        ih (fun x hx => h x (by simp [hx]))]

/-- C10: a string made of a non-empty run of digits followed by anything
that does not extend the digit run (`"12.9"`, `"42abc"`, …) is coerced by
`parseInt` to the value of its leading digits and passes the integer type
check — `validate` succeeds instead of rejecting the string. -/
theorem C10_leading_digits_coerced (ds rest : List Char)
    (h1 : ds ≠ []) (h2 : ∀ c ∈ ds, c.isDigit = true)
    (h3 : ∀ c ∈ rest.take 1, c.isDigit = false) :
    jsParseInt (String.mk (ds ++ rest)) = some (digitsToNat ds : Int) ∧
    integerValidate [] false (JsValue.vstr (String.mk (ds ++ rest))) none
      = VResult.ok (JsValue.vstr (String.mk (ds ++ rest))) := by
  obtain ⟨d, ds', rfl⟩ : ∃ d ds', ds = d :: ds' := by
    cases ds with
    | nil => exact absurd rfl h1
    | cons a b => exact ⟨a, b, rfl⟩
  have hd : d.isDigit = true := h2 d (by simp)
  have htw : (ds' ++ rest).takeWhile (fun c => c.isDigit) = ds' := by
    rw [takeWhile_append_of_all _ _ _ (fun c hc => h2 c (by simp [hc]))]
    cases rest with
    | nil => simp
    | cons r rs => simp [List.takeWhile_cons, h3 r (by simp)]
  have hparse : jsParseInt (String.mk ((d :: ds') ++ rest))
      = some (digitsToNat (d :: ds') : Int) := by
    simp [jsParseInt, List.dropWhile_cons, digit_not_ws hd,
      jsParseSign_digit _ hd, List.takeWhile_cons, hd, htw]
  refine ⟨hparse, ?_⟩
  have hparse' := hparse
  simp only [List.cons_append] at hparse'
  simp [integerValidate, JsValue.isNullish, jsLenNonNull, hparse', intRulesGo,
    Rat.den_intCast]

/-- C10 witness: `"12.9"` parses to 12 and passes validation. -/
theorem C10_witness :
    (['1', '2'] : List Char) ≠ [] ∧
    (∀ c ∈ (['1', '2'] : List Char), c.isDigit = true) ∧
    (∀ c ∈ (['.', '9'] : List Char).take 1, c.isDigit = false) ∧
    (jsParseInt (String.mk (['1', '2'] ++ ['.', '9'])) = some 12 ∧
     integerValidate [] false
         (JsValue.vstr (String.mk (['1', '2'] ++ ['.', '9']))) none
       = VResult.ok (JsValue.vstr (String.mk (['1', '2'] ++ ['.', '9'])))) :=
  ⟨by decide, by decide, by decide,
   C10_leading_digits_coerced ['1', '2'] ['.', '9'] (by decide) (by decide) (by decide)⟩

end LightValidation
